import Mathlib

/-!
Verification of the pane layout engine of the notelet repository
(src/scripts/theme.js, with an earlier rewrite of the same file in
src/unnamed/part_003).

The pane tree is a tagged union: a node is either a leaf
`{ type: 'leaf', id }` or a split `{ type: 'split', dir, children, sizes }`.
We embed the tree operations `normalizeTree`, `getFirstLeaf`, `findLeaf`
(as the decidable membership `containsLeaf`), `splitPane`, `removeLeaf`,
`ensureTree`, the mobile collapse/restore cycle, and the two resizer
pointer-move computations, and prove the spec's testable properties
about them.
-/

/-- PaneNode: the tree node shape used by theme.js. `sizes` is an `Option`
because a node arriving from deserialization may lack a sizes array
(JS `undefined`, rejected by the `Array.isArray` check in `normalizeTree`).
Sizes are embedded as rationals. -/
inductive PaneNode where
  | leaf (id : String)
  | split (dir : String) (children : List PaneNode) (sizes : Option (List ℚ))

/-- cloneTree (theme.js:2479-2481): a JSON deep copy; on the pure embedding
this is the identity on present trees and null on null. -/
def cloneTree (t : Option PaneNode) : Option PaneNode := t

mutual

/-- getFirstLeaf (theme.js:2515-2523): deterministic depth-first pick of the
first leaf, null when there is none. -/
def getFirstLeaf : PaneNode → Option PaneNode
  | .leaf i => some (.leaf i)
  | .split _ cs _ => getFirstLeafList cs

/-- The loop over `node.children` inside getFirstLeaf. -/
def getFirstLeafList : List PaneNode → Option PaneNode
  | [] => none
  | c :: cs =>
    match getFirstLeaf c with
    | some l => some l
    | none => getFirstLeafList cs

end

/-- The `.id` read performed on the result of getFirstLeaf (`?.id`). -/
def leafIdOf : PaneNode → Option String
  | .leaf i => some i
  | .split _ _ _ => none

mutual

/-- Success of findLeaf (theme.js:2525-2538): findLeaf returns a record for
the first depth-first leaf whose id matches; `containsLeaf` is exactly the
predicate "findLeaf does not return null". -/
def containsLeaf : PaneNode → String → Bool
  | .leaf i, p => i = p
  | .split _ cs _, p => containsLeafList cs p

/-- The loop over `node.children` inside findLeaf. -/
def containsLeafList : List PaneNode → String → Bool
  | [], _ => false
  | c :: cs, p => containsLeaf c p || containsLeafList cs p

end

mutual

/-- Depth-first list of the leaf ids of a tree. -/
def leafIds : PaneNode → List String
  | .leaf i => [i]
  | .split _ cs _ => leafIdsList cs

/-- Depth-first list of the leaf ids of a forest. -/
def leafIdsList : List PaneNode → List String
  | [] => []
  | c :: cs => leafIds c ++ leafIdsList cs

end

/-- Leaf ids of a nullable tree. -/
def leafIdsOpt : Option PaneNode → List String
  | none => []
  | some t => leafIds t

mutual

/-- normalizeTree (theme.js:2499-2513) on a present node: coerces `dir` to
'row' unless it is 'row' or 'col', normalizes the children, and when the
sizes array is missing or its length differs from the (normalized) children
length, replaces it by `new Array(len).fill(1/len)` with
`len = Math.max(1, children.length)`. The JS `filter(Boolean)` over the
normalized children drops nothing here because on these two node shapes
normalizeTree never returns null. -/
def normTree : PaneNode → PaneNode
  | .leaf i => .leaf i
  | .split d cs sz =>
    let d' := if d = "row" ∨ d = "col" then d else "row"
    let kids := normTreeList cs
    let sz' :=
      match sz with
      | some s =>
        if s.length = kids.length then some s
        else some (List.replicate (max 1 kids.length) ((1 : ℚ) / (max 1 kids.length : ℕ)))
      | none => some (List.replicate (max 1 kids.length) ((1 : ℚ) / (max 1 kids.length : ℕ)))
    .split d' kids sz'

/-- The `kids.map(child => this.normalizeTree(child))` step. -/
def normTreeList : List PaneNode → List PaneNode
  | [] => []
  | c :: cs => normTree c :: normTreeList cs

end

/-- normalizeTree on its nullable argument (`if (!node) return null`). -/
def normalizeTree : Option PaneNode → Option PaneNode
  | none => none
  | some t => some (normTree t)

/-- ensureTree (theme.js:2467-2477), tree aspect: when the tree is null a
single fresh leaf becomes the tree. `ensureId` stands for the value
produced by `createPaneId()` there. -/
def ensureTree (tree : Option PaneNode) (ensureId : String) : PaneNode :=
  match tree with
  | some t => t
  | none => .leaf ensureId

/-- The `dir` computed by splitPane (theme.js:2598): 'col' for a left/right
request, 'row' otherwise. -/
def splitDir (direction : String) : String :=
  if direction = "left" ∨ direction = "right" then "col" else "row"

/-- The ordering test of splitPane (theme.js:2600-2601): a 'left' or 'top'
request puts the fresh leaf first. -/
def newLeafFirst (direction : String) : Bool :=
  direction = "left" ∨ direction = "top"

mutual

/-- Pane-tree effect of splitPane (theme.js:2593-2609) below the root:
locate the first depth-first leaf matching `paneId` and replace it in its
parent (`parent.children[index] = splitNode`) by the splitNode
`{ type:'split', dir, children:[first,second], sizes:[0.5,0.5] }` built at
theme.js:2600-2602, where the fresh leaf carries `freshId`. Returns none
exactly when findLeaf fails. The JS `dir || 'row'` never fires because
`dir` is always the truthy 'col' or 'row'. -/
def splitGo : PaneNode → String → String → String → Option PaneNode
  | .leaf i, paneId, direction, freshId =>
    if i = paneId then
      some (.split (splitDir direction)
        (if newLeafFirst direction then [.leaf freshId, .leaf i] else [.leaf i, .leaf freshId])
        (some [1/2, 1/2]))
    else none
  | .split d cs sz, paneId, direction, freshId =>
    match splitGoList cs paneId direction freshId with
    | some cs' => some (.split d cs' sz)
    | none => none

/-- The depth-first walk of splitGo over a forest: the first child in which
the leaf is found is replaced by its transformed version. -/
def splitGoList : List PaneNode → String → String → String → Option (List PaneNode)
  | [], _, _, _ => none
  | c :: cs, p, d, f =>
    match splitGo c p d f with
    | some c' => some (c' :: cs)
    | none =>
      match splitGoList cs p d f with
      | some cs' => some (c :: cs')
      | none => none

end

/-- splitPane (theme.js:2593-2609): `ensureTree()` first, then the leaf
replacement; returns the new tree together with the function's return value
(`freshId` on success, null when findLeaf failed). `freshId` stands for
`newPaneId || this.createPaneId()` and `ensureId` for the id created by
`ensureTree` on a null tree. -/
def splitPane (tree : Option PaneNode) (ensureId paneId direction freshId : String) :
    Option PaneNode × Option String :=
  let t := ensureTree tree ensureId
  match splitGo t paneId direction freshId with
  | some t' => (some t', some freshId)
  | none => (some t, none)

mutual

/-- Subtree effect of removeLeaf (theme.js:2545-2564): none when findLeaf
fails inside this subtree; `some none` when this node itself is the matching
leaf (root case, `this.paneTree = null`); `some (some t')` otherwise. At the
split whose direct child is the removed leaf, the child is spliced out of
`children` — the `sizes` array is left untouched (the code has no
corresponding splice on sizes) — and when exactly one child remains the
split is replaced by that lone child in its own parent
(theme.js:2555-2563). Splits higher up only see their child replaced and
perform no collapse of their own. -/
def removeLeafGo : PaneNode → String → Option (Option PaneNode)
  | .leaf i, p => if i = p then some none else none
  | .split d cs sz, p =>
    match removeLeafList cs p with
    | some (cs', true) =>
      match cs' with
      | [lone] => some (some lone)
      | _ => some (some (.split d cs' sz))
    | some (cs', false) => some (some (.split d cs' sz))
    | none => none

/-- The walk of removeLeafGo over the children: the Bool records whether the
splice happened at this level (the matched leaf was a direct child), which
is the only case in which the enclosing split runs its length-1 collapse. -/
def removeLeafList : List PaneNode → String → Option (List PaneNode × Bool)
  | [], _ => none
  | c :: cs, p =>
    match removeLeafGo c p with
    | some none => some (cs, true)
    | some (some c') => some (c' :: cs, false)
    | none =>
      match removeLeafList cs p with
      | some (cs', b) => some (c :: cs', b)
      | none => none

end

/-- removeLeaf (theme.js:2545-2564) as a function of the nullable tree: not
found leaves the tree unchanged, removing the root leaf nulls the tree. -/
def removeLeaf (tree : Option PaneNode) (paneId : String) : Option PaneNode :=
  match tree with
  | none => none
  | some t =>
    match removeLeafGo t paneId with
    | none => some t
    | some none => none
    | some (some t') => some t'

mutual

/-- Invariant actually maintained by the two mutation operations: every
split node of the tree has exactly two children and a present sizes array
of length two. -/
def binaryWf : PaneNode → Bool
  | .leaf _ => true
  | .split _ cs sz =>
    decide (cs.length = 2) &&
      (match sz with | some s => decide (s.length = 2) | none => false) &&
      binaryWfList cs

/-- binaryWf on a forest. -/
def binaryWfList : List PaneNode → Bool
  | [] => true
  | c :: cs => binaryWf c && binaryWfList cs

end

mutual

/-- Shape required by the data model: every split has at least two
children and a present sizes array whose length equals the children
length. -/
def claimWf : PaneNode → Bool
  | .leaf _ => true
  | .split _ cs sz =>
    decide (2 ≤ cs.length) &&
      (match sz with | some s => decide (s.length = cs.length) | none => false) &&
      claimWfList cs

/-- claimWf on a forest. -/
def claimWfList : List PaneNode → Bool
  | [] => true
  | c :: cs => claimWf c && claimWfList cs

end

mutual

/-- Depth-first preorder list of the (dir, sizes) data of every split node:
the part of a tree that splitPane must leave untouched outside the target
leaf. -/
def splitMeta : PaneNode → List (String × Option (List ℚ))
  | .leaf _ => []
  | .split d cs sz => (d, sz) :: splitMetaList cs

/-- splitMeta on a forest. -/
def splitMetaList : List PaneNode → List (String × Option (List ℚ))
  | [] => []
  | c :: cs => splitMeta c ++ splitMetaList cs

end

mutual

/-- Fixed points of normTree: dir is 'row' or 'col' and sizes is present
with matching length, at every split. Trees built by splitPane satisfy
this. -/
def normalForm : PaneNode → Bool
  | .leaf _ => true
  | .split d cs sz =>
    (decide (d = "row") || decide (d = "col")) &&
      (match sz with | some s => decide (s.length = cs.length) | none => false) &&
      normalFormList cs

/-- normalForm on a forest. -/
def normalFormList : List PaneNode → Bool
  | [] => true
  | c :: cs => normalForm c && normalFormList cs

end

mutual

/-- Shape actually guaranteed for normalizeTree's output: direction is
'row' or 'col', the sizes array is present with length equal to the
children count or — only possible for a childless split — equal to
max(1, children count) = 1, recursively. -/
def normOutWf : PaneNode → Bool
  | .leaf _ => true
  | .split d cs sz =>
    (decide (d = "row") || decide (d = "col")) &&
      (match sz with
       | some s => decide (s.length = cs.length) || decide (s.length = max 1 cs.length)
       | none => false) &&
      normOutWfList cs

/-- normOutWf on a forest. -/
def normOutWfList : List PaneNode → Bool
  | [] => true
  | c :: cs => normOutWf c && normOutWfList cs

end

/-- Spec-side description of splitPane's tree effect, written from the
spec's words for comparison with splitGo: the splitNode replacing the
target leaf — direction 'col' for a left/right request and 'row' for the
others, the fresh leaf placed first exactly for 'left'/'top', both sizes
0.5. -/
def specSplitNode (paneId direction freshId : String) : PaneNode :=
  .split (splitDir direction)
    (if newLeafFirst direction then [.leaf freshId, .leaf paneId]
     else [.leaf paneId, .leaf freshId])
    (some [1/2, 1/2])

mutual

/-- Spec-side description, written from the spec's words: replace the first
depth-first leaf whose id is `p` by the replacement node `r`; none when no
leaf matches. -/
def replaceFirstLeaf : PaneNode → String → PaneNode → Option PaneNode
  | .leaf i, p, r => if i = p then some r else none
  | .split d cs sz, p, r =>
    match replaceFirstLeafList cs p r with
    | some cs' => some (.split d cs' sz)
    | none => none

/-- replaceFirstLeaf on a forest. -/
def replaceFirstLeafList : List PaneNode → String → PaneNode → Option (List PaneNode)
  | [], _, _ => none
  | c :: cs, p, r =>
    match replaceFirstLeaf c p r with
    | some c' => some (c' :: cs)
    | none =>
      match replaceFirstLeafList cs p r with
      | some cs' => some (c :: cs')
      | none => none

end

/-- Amended one-level removal result: the children after the splice, with
the length-1 collapse of theme.js:2555-2563 applied and the sizes array
kept as it was. -/
def collapseSingle (d : String) (cs : List PaneNode) (sz : Option (List ℚ)) : PaneNode :=
  match cs with
  | [lone] => lone
  | _ => .split d cs sz

/-- Pointer-move extents of makeResizerFlexible (theme.js:3358-3394): from
the pointer-down pixel extents of the two adjacent siblings and the pointer
delta along the split axis, the recomputed pixel extents
`newPrev = Math.max(80, Math.min(total - 80, prevStart + delta))` and
`newNext = Math.max(80, total - newPrev)`. -/
def flexResizerExtents (prevStart nextStart delta : ℚ) : ℚ × ℚ :=
  let total := prevStart + nextStart
  let newPrev := max 80 (min (total - 80) (prevStart + delta))
  let newNext := max 80 (total - newPrev)
  (newPrev, newNext)

/-- Pointer-move sizes write of makeResizerFlexible (theme.js:3365-3375,
with a present sizes array): `sizes[idx] = ratioPrev` and, when
`sizes[idx+1]` exists, `sizes[idx+1] = ratioNext`, where the ratios
renormalize the recomputed extents. The sibling elements exist on both
sides of the resizer, so the `nextEl` guard holds. -/
def flexResizerSizes (sizes : List ℚ) (idx : Nat) (prevStart nextStart delta : ℚ) :
    List ℚ :=
  let e := flexResizerExtents prevStart nextStart delta
  let ratioPrev := e.1 / (e.1 + e.2)
  let ratioNext := e.2 / (e.1 + e.2)
  let s1 := sizes.set idx ratioPrev
  if idx + 1 < sizes.length then s1.set (idx + 1) ratioNext else s1

/-- Pointer-move extents of the earlier makeResizer rewrite
(src/unnamed/part_003:1412-1420):
`newLeft = Math.max(80, Math.min(total - 80, leftStart + dx))` and
`newRight = total - newLeft`, written to the two panes' flex bases. -/
def makeResizerExtents (leftStart rightStart delta : ℚ) : ℚ × ℚ :=
  let total := leftStart + rightStart
  let newLeft := max 80 (min (total - 80) (leftStart + delta))
  (newLeft, total - newLeft)

/-- One editable unit as the layout engine sees it: the stable session id
(`__sessionId`) and the id of the pane currently hosting it
(`__pane.dataset.paneId`). -/
structure EditorUnit where
  sessionId : String
  paneId : String

/-- The desktopLayoutBackup slot written by collapseToMobilePane
(theme.js:2702-2706). -/
structure LayoutBackup where
  tree : Option PaneNode
  activePaneId : Option String
  editorPaneMap : List (String × String)

/-- The engine state touched by the mobile collapse/restore cycle. -/
structure EngineState where
  paneTree : Option PaneNode
  activePaneId : Option String
  editors : List EditorUnit
  desktopLayoutBackup : Option LayoutBackup
  isMobileCollapsed : Bool

/-- The editorPaneMap built at theme.js:2698-2701: one entry per editor
with a truthy `__sessionId`, later assignments to the same key
overwriting earlier ones (plain JS object writes). -/
def recordPaneMap (editors : List EditorUnit) : List (String × String) :=
  editors.filterMap fun e =>
    if e.sessionId = "" then none else some (e.sessionId, e.paneId)

/-- JS object lookup on the map of recordPaneMap: the value of the last
write to the key, none when the key was never written. -/
def lookupMap (m : List (String × String)) (k : String) : Option String :=
  m.foldl (fun acc kv => if kv.1 = k then some kv.2 else acc) none

/-- collapseToMobilePane (theme.js:2695-2719): when not already collapsed,
back up the cloned tree, the active pane id and the editor→pane map; merge
every editor into the target pane (the active pane, else the first leaf,
else a fresh id, modelled by `freshId`); replace the tree by a single leaf
carrying the target id; mark collapsed. The intermediate tree and active-id
writes performed by cleanupPane during the merge are overwritten by the
wholesale assignments at theme.js:2712-2713, and the backup was deep-cloned
before them. -/
def collapseToMobilePane (s : EngineState) (freshId : String) : EngineState :=
  if s.isMobileCollapsed then s
  else
    let backup : LayoutBackup :=
      { tree := cloneTree s.paneTree
        activePaneId := s.activePaneId
        editorPaneMap := recordPaneMap s.editors }
    let targetId :=
      match s.activePaneId with
      | some a => a
      | none =>
        match (s.paneTree.bind getFirstLeaf).bind leafIdOf with
        | some i => i
        | none => freshId
    { paneTree := some (.leaf targetId)
      activePaneId := some targetId
      editors := s.editors.map fun e => { e with paneId := targetId }
      desktopLayoutBackup := some backup
      isMobileCollapsed := true }

/-- The editors.forEach loop of restoreFromMobileCollapse
(theme.js:2728-2732) together with the cleanupPane effect
(theme.js:2737-2751) triggered by each moveEditorToPane (theme.js:2682):
each editor in order is moved to the pane recorded for its session id,
falling back to the current active pane id and then to a fresh id
(`fresh`); when the move empties the editor's previous pane, that pane's
leaf is removed from the tree and, if it was the active pane, the active id
falls back to the first leaf. `done` holds the already-processed prefix of
the editors list, `todo` the rest; pane-element identity is id identity
under the paneDom cache discipline. -/
def restoreEditors (m : List (String × String)) (fresh : String) :
    Option PaneNode → Option String → List EditorUnit → List EditorUnit →
    Option PaneNode × Option String × List EditorUnit
  | tree, active, done, [] => (tree, active, done)
  | tree, active, done, u :: todo =>
    let targetId :=
      match lookupMap m u.sessionId with
      | some i => i
      | none => match active with | some a => a | none => fresh
    if u.paneId = targetId then
      restoreEditors m fresh tree active (done ++ [u]) todo
    else
      let u' := { u with paneId := targetId }
      if (done ++ u' :: todo).all (fun e => !decide (e.paneId = u.paneId)) then
        let tree' := removeLeaf tree u.paneId
        let active' :=
          if active = some u.paneId then (tree'.bind getFirstLeaf).bind leafIdOf
          else active
        restoreEditors m fresh tree' active' (done ++ [u']) todo
      else
        restoreEditors m fresh tree active (done ++ [u']) todo

/-- restoreFromMobileCollapse (theme.js:2721-2735): no-op unless collapsed
with a backup; restore the normalized clone of the backed-up tree when it
is non-null, restore the active pane id (falling back to the first leaf),
move every editor back per the backup map, then clear the collapsed flag
and the backup. -/
def restoreFromMobileCollapse (s : EngineState) (fresh : String) : EngineState :=
  match s.desktopLayoutBackup with
  | none => s
  | some backup =>
    if s.isMobileCollapsed then
      let tree0 := normalizeTree (cloneTree backup.tree)
      let paneTree1 := match tree0 with | some t => some t | none => s.paneTree
      let active1 :=
        match backup.activePaneId with
        | some a => some a
        | none => (paneTree1.bind getFirstLeaf).bind leafIdOf
      let r := restoreEditors backup.editorPaneMap fresh paneTree1 active1 [] s.editors
      { paneTree := r.1
        activePaneId := r.2.1
        editors := r.2.2
        desktopLayoutBackup := none
        isMobileCollapsed := false }
    else s

/-- binaryWf on the nullable tree. -/
def binaryWfOpt : Option PaneNode → Bool
  | none => true
  | some t => binaryWf t

/-- claimWf on the nullable tree. -/
def claimWfOpt : Option PaneNode → Bool
  | none => true
  | some t => claimWf t

/-- Trees reachable from a single-leaf tree by any sequence of splitPane
and removeLeaf calls, with arbitrary ids and directions. -/
inductive ReachableTree : Option PaneNode → Prop where
  | init (id : String) : ReachableTree (some (.leaf id))
  | split (T : Option PaneNode) (e p d f : String) :
      ReachableTree T → ReachableTree (splitPane T e p d f).1
  | remove (T : Option PaneNode) (p : String) :
      ReachableTree T → ReachableTree (removeLeaf T p)

/-- Trees reachable by splitPane and removeLeaf from any tree whose leaf
ids are unique, each split being fed an id fresh for the tree it acts on
(which is what createPaneId is for). -/
inductive ReachableFresh : Option PaneNode → Prop where
  | base (T : Option PaneNode) : (leafIdsOpt T).Nodup → ReachableFresh T
  | split (T : Option PaneNode) (e p d f : String) :
      ReachableFresh T → f ∉ leafIds (ensureTree T e) →
      ReachableFresh (splitPane T e p d f).1
  | remove (T : Option PaneNode) (p : String) :
      ReachableFresh T → ReachableFresh (removeLeaf T p)

mutual

theorem splitGo_eq_replaceFirstLeaf : ∀ (t : PaneNode) (p d f : String),
    splitGo t p d f = replaceFirstLeaf t p (specSplitNode p d f)
  | .leaf i, p, d, f => by
    by_cases h : i = p
    · subst h; simp [splitGo, replaceFirstLeaf, specSplitNode]
    · simp [splitGo, replaceFirstLeaf, h]
  | .split dd cs sz, p, d, f => by
    simp only [splitGo, replaceFirstLeaf, splitGoList_eq_replaceFirstLeafList cs p d f]

theorem splitGoList_eq_replaceFirstLeafList : ∀ (cs : List PaneNode) (p d f : String),
    splitGoList cs p d f = replaceFirstLeafList cs p (specSplitNode p d f)
  | [], p, d, f => by simp [splitGoList, replaceFirstLeafList]
  | c :: cs, p, d, f => by
    simp only [splitGoList, replaceFirstLeafList, splitGo_eq_replaceFirstLeaf c p d f,
      splitGoList_eq_replaceFirstLeafList cs p d f]

end

mutual

theorem splitGo_not_found : ∀ (t : PaneNode) (p d f : String),
    containsLeaf t p = false → splitGo t p d f = none
  | .leaf i, p, d, f, h => by
    simp [containsLeaf] at h
    simp [splitGo, h]
  | .split dd cs sz, p, d, f, h => by
    simp only [containsLeaf] at h
    simp [splitGo, splitGoList_not_found cs p d f h]

theorem splitGoList_not_found : ∀ (cs : List PaneNode) (p d f : String),
    containsLeafList cs p = false → splitGoList cs p d f = none
  | [], _, _, _, _ => by simp [splitGoList]
  | c :: cs, p, d, f, h => by
    simp only [containsLeafList, Bool.or_eq_false_iff] at h
    simp [splitGoList, splitGo_not_found c p d f h.1, splitGoList_not_found cs p d f h.2]

end

mutual

theorem removeLeafGo_not_found : ∀ (t : PaneNode) (p : String),
    containsLeaf t p = false → removeLeafGo t p = none
  | .leaf i, p, h => by
    simp [containsLeaf] at h
    simp [removeLeafGo, h]
  | .split dd cs sz, p, h => by
    simp only [containsLeaf] at h
    simp [removeLeafGo, removeLeafList_not_found cs p h]

theorem removeLeafList_not_found : ∀ (cs : List PaneNode) (p : String),
    containsLeafList cs p = false → removeLeafList cs p = none
  | [], _, _ => by simp [removeLeafList]
  | c :: cs, p, h => by
    simp only [containsLeafList, Bool.or_eq_false_iff] at h
    simp [removeLeafList, removeLeafGo_not_found c p h.1, removeLeafList_not_found cs p h.2]

end

mutual

theorem splitGo_found : ∀ (t : PaneNode) (p d f : String),
    containsLeaf t p = true → ∃ t', splitGo t p d f = some t'
  | .leaf i, p, d, f, h => by
    simp [containsLeaf] at h
    simp [splitGo, h]
  | .split dd cs sz, p, d, f, h => by
    simp only [containsLeaf] at h
    obtain ⟨cs', hcs⟩ := splitGoList_found cs p d f h
    exact ⟨.split dd cs' sz, by simp [splitGo, hcs]⟩

theorem splitGoList_found : ∀ (cs : List PaneNode) (p d f : String),
    containsLeafList cs p = true → ∃ cs', splitGoList cs p d f = some cs'
  | c :: cs, p, d, f, h => by
    simp only [containsLeafList, Bool.or_eq_true] at h
    rcases hc : splitGo c p d f with _ | c'
    · rcases h with h | h
      · obtain ⟨c', hc'⟩ := splitGo_found c p d f h
        simp [hc'] at hc
      · obtain ⟨cs', hcs⟩ := splitGoList_found cs p d f h
        exact ⟨c :: cs', by simp [splitGoList, hc, hcs]⟩
    · exact ⟨c' :: cs, by simp [splitGoList, hc]⟩

end

/-- C2: splitPane replaces the located leaf (the first depth-first match)
by the splitNode the spec describes: direction 'col' for a left/right
request and 'row' for a top/bottom one, the fresh leaf placed first exactly
for 'left'/'top' requests, both sizes 0.5; and splitting the single leaf P1
to the right yields Split(col, [P1, P2], [0.5, 0.5]) with P2 returned. -/
theorem c2_split_shape :
    (∀ (t : PaneNode) (p direction f : String),
        splitGo t p direction f = replaceFirstLeaf t p (specSplitNode p direction f)) ∧
    splitDir "left" = "col" ∧ splitDir "right" = "col" ∧
    splitDir "top" = "row" ∧ splitDir "bottom" = "row" ∧
    newLeafFirst "left" = true ∧ newLeafFirst "top" = true ∧
    newLeafFirst "right" = false ∧ newLeafFirst "bottom" = false ∧
    splitPane (some (.leaf "P1")) "E" "P1" "right" "P2" =
      (some (.split "col" [.leaf "P1", .leaf "P2"] (some [1/2, 1/2])), some "P2") :=
  ⟨splitGo_eq_replaceFirstLeaf, rfl, rfl, rfl, rfl, rfl, rfl, rfl, rfl, rfl⟩

/-- C9: on a leaf id absent from the tree, splitPane returns null and
leaves the tree as ensureTree left it (unchanged, the tree being present),
and removeLeaf returns without touching the tree. -/
theorem c9_absent_leaf_noop (t : PaneNode) (e p direction f : String)
    (h : containsLeaf t p = false) :
    splitPane (some t) e p direction f = (some t, none) ∧
    removeLeaf (some t) p = some t := by
  constructor
  · simp [splitPane, ensureTree, splitGo_not_found t p direction f h]
  · simp [removeLeaf, removeLeafGo_not_found t p h]

theorem removeLeafList_at_first_match (p : String) :
    ∀ (pre post : List PaneNode), containsLeafList pre p = false →
      removeLeafList (pre ++ .leaf p :: post) p = some (pre ++ post, true)
  | [], post, _ => by simp [removeLeafList, removeLeafGo]
  | c :: pre, post, h => by
    simp only [containsLeafList, Bool.or_eq_false_iff] at h
    simp [removeLeafList, removeLeafGo_not_found c p h.1,
      removeLeafList_at_first_match p pre post h.2]

/-- C3 counterexample: on a well-shaped three-child split, removeLeaf
splices the leaf out of the children but leaves the parent's sizes array at
length 3, so the leaf's size entry is not removed and the resulting split
violates the sizes/children length equality. -/
theorem c3_counterexample :
    claimWf (.split "row" [.leaf "A", .leaf "B", .leaf "C"]
        (some [1/3, 1/3, 1/3])) = true ∧
    removeLeaf (some (.split "row" [.leaf "A", .leaf "B", .leaf "C"]
        (some [1/3, 1/3, 1/3]))) "A" =
      some (.split "row" [.leaf "B", .leaf "C"] (some [1/3, 1/3, 1/3])) ∧
    claimWf (.split "row" [.leaf "B", .leaf "C"] (some [1/3, 1/3, 1/3])) = false :=
  ⟨rfl, rfl, rfl⟩

/-- C3 amended: removeLeaf removes the first matching leaf from its
parent's children but leaves the parent's sizes array untouched; when the
parent is left with exactly one child it is replaced by that child in its
own parent (so on the binary splits the engine produces, the stale sizes
never survive); removing the root leaf nulls the tree; and Scenario C
removes P2 from Split(col, [P1, Split(row, [P2, P3])]) giving
Split(col, [P1, P3]). -/
theorem c3_remove_behavior :
    (∀ p : String, removeLeaf (some (.leaf p)) p = none) ∧
    (∀ (d p : String) (pre post : List PaneNode) (sz : Option (List ℚ)),
        containsLeafList pre p = false →
        removeLeafGo (.split d (pre ++ .leaf p :: post) sz) p =
          some (some (collapseSingle d (pre ++ post) sz))) ∧
    removeLeaf
        (some (.split "col"
          [.leaf "P1", .split "row" [.leaf "P2", .leaf "P3"] (some [1/2, 1/2])]
          (some [1/2, 1/2]))) "P2" =
      some (.split "col" [.leaf "P1", .leaf "P3"] (some [1/2, 1/2])) := by
  refine ⟨fun p => by simp [removeLeaf, removeLeafGo], fun d p pre post sz h => ?_, rfl⟩
  simp only [removeLeafGo, removeLeafList_at_first_match p pre post h]
  cases hc : pre ++ post with
  | nil => simp [collapseSingle]
  | cons x xs => cases xs <;> simp [collapseSingle]

/-- Witness for C3 amended, on a ternary split whose surviving sizes array
keeps all three entries. -/
theorem c3_witness :
    removeLeaf (some (.leaf "P1")) "P1" = none ∧
    containsLeafList [.leaf "B"] "A" = false ∧
    removeLeafGo (.split "row" [.leaf "B", .leaf "A", .leaf "C"]
        (some [1/3, 1/3, 1/3])) "A" =
      some (some (collapseSingle "row" [.leaf "B", .leaf "C"]
        (some [1/3, 1/3, 1/3]))) :=
  ⟨c3_remove_behavior.1 "P1", rfl,
    c3_remove_behavior.2.1 "row" "A" [.leaf "B"] [.leaf "C"] (some [1/3, 1/3, 1/3]) rfl⟩

mutual

theorem normTree_normOutWf : ∀ t : PaneNode, normOutWf (normTree t) = true
  | .leaf _ => rfl
  | .split d cs sz => by
    simp only [normTree, normOutWf]
    rw [Bool.and_eq_true, Bool.and_eq_true]
    refine ⟨⟨?_, ?_⟩, normTreeList_normOutWf cs⟩
    · by_cases h : d = "row" ∨ d = "col"
      · rcases h with h | h <;> simp [h]
      · simp [h]
    · rcases sz with _ | s
      · simp
      · by_cases h : s.length = (normTreeList cs).length <;> simp [h]

theorem normTreeList_normOutWf : ∀ cs : List PaneNode, normOutWfList (normTreeList cs) = true
  | [] => rfl
  | c :: cs => by
    simp only [normTreeList, normOutWfList]
    rw [Bool.and_eq_true]
    exact ⟨normTree_normOutWf c, normTreeList_normOutWf cs⟩

end

/-- C8 counterexample: normalize is not enough to reach the data model's
valid shape — a one-child split passes through normalizeTree completely
unchanged (violating the at-least-2-children constraint), and for a
childless split the recomputed sizes array has length 1 against 0
children. -/
theorem c8_counterexample :
    normTree (.split "row" [.leaf "A"] (some [1])) =
      .split "row" [.leaf "A"] (some [1]) ∧
    claimWf (.split "row" [.leaf "A"] (some [1])) = false ∧
    normTree (.split "diag" [] none) = .split "row" [] (some [1]) ∧
    claimWf (.split "row" [] (some [1])) = false := by
  refine ⟨rfl, rfl, ?_, rfl⟩
  simp [normTree, normTreeList]

/-- C8 amended: normalizeTree never rejects its input — it totally coerces
the direction to 'row' or 'col' (default 'row'), recurses into the
children, and keeps the sizes array only when it is present with a length
equal to the children count, otherwise replacing it by the uniform
distribution over max(1, children count); but it does not enforce the
at-least-2-children constraint, and on a childless split the recomputed
sizes array has length 1, not 0. -/
theorem c8_normalize_shape : ∀ t : PaneNode, normOutWf (normTree t) = true :=
  normTree_normOutWf

mutual

theorem splitGo_removeLeafGo_inverse : ∀ (t : PaneNode) (p d f : String) (t' : PaneNode),
    splitGo t p d f = some t' → containsLeaf t f = false →
    removeLeafGo t' f = some (some t)
  | .leaf i, p, d, f, t', hs, hf => by
    simp only [containsLeaf, decide_eq_false_iff_not] at hf
    by_cases h : i = p
    · subst h
      simp only [splitGo, if_pos, Option.some.injEq] at hs
      subst hs
      by_cases hnf : newLeafFirst d = true
      · simp [removeLeafGo, removeLeafList, hnf]
      · simp only [Bool.not_eq_true] at hnf
        simp [removeLeafGo, removeLeafList, hnf, hf]
    · simp [splitGo, h] at hs
  | .split dd cs sz, p, d, f, t', hs, hf => by
    simp only [containsLeaf] at hf
    simp only [splitGo] at hs
    rcases hcs : splitGoList cs p d f with _ | cs'
    · simp [hcs] at hs
    · rw [hcs] at hs
      simp only [Option.some.injEq] at hs
      subst hs
      simp [removeLeafGo, splitGoList_removeLeafList_inverse cs p d f cs' hcs hf]

theorem splitGoList_removeLeafList_inverse : ∀ (cs : List PaneNode) (p d f : String)
    (cs' : List PaneNode),
    splitGoList cs p d f = some cs' → containsLeafList cs f = false →
    removeLeafList cs' f = some (cs, false)
  | c :: cs, p, d, f, cs', hs, hf => by
    simp only [containsLeafList, Bool.or_eq_false_iff] at hf
    simp only [splitGoList] at hs
    rcases hc : splitGo c p d f with _ | c'
    · rw [hc] at hs
      rcases hcs : splitGoList cs p d f with _ | cs''
      · simp [hcs] at hs
      · rw [hcs] at hs
        simp only [Option.some.injEq] at hs
        subst hs
        simp [removeLeafList, removeLeafGo_not_found c f hf.1,
          splitGoList_removeLeafList_inverse cs p d f cs'' hcs hf.2]
    · rw [hc] at hs
      simp only [Option.some.injEq] at hs
      subst hs
      simp [removeLeafList, splitGo_removeLeafGo_inverse c p d f c' hc hf.1]

end

/-- C4: splitting any leaf of a tree in any direction and then removing
the freshly created leaf yields back exactly the pre-split tree (the fresh
id being new to the tree). -/
theorem c4_split_remove_inverse (t : PaneNode) (e p direction f : String)
    (hp : containsLeaf t p = true) (hf : containsLeaf t f = false) :
    removeLeaf (splitPane (some t) e p direction f).1 f = some t := by
  obtain ⟨t', ht'⟩ := splitGo_found t p direction f hp
  simp only [splitPane, ensureTree, ht']
  simp [removeLeaf, splitGo_removeLeafGo_inverse t p direction f t' ht' hf]

/-- Witness for C4: Scenario B — splitting P1 to the right and removing the
returned P2 gives back the single leaf P1. -/
theorem c4_witness :
    containsLeaf (.leaf "P1") "P1" = true ∧
    containsLeaf (.leaf "P1") "P2" = false ∧
    removeLeaf (splitPane (some (.leaf "P1")) "E" "P1" "right" "P2").1 "P2" =
      some (.leaf "P1") :=
  ⟨rfl, rfl, c4_split_remove_inverse (.leaf "P1") "E" "P1" "right" "P2" rfl rfl⟩

/-- C7 counterexample: in the earlier makeResizer rewrite
(src/unnamed/part_003), the right sibling's recomputed extent is
`total - newLeft` with no clamp of its own, so with both siblings starting
at 50px a rightward drag of 60px leaves the right sibling at 20px, below
the 80px minimum. -/
theorem c7_counterexample :
    makeResizerExtents 50 50 60 = (80, 20) ∧ ¬ (80 ≤ (makeResizerExtents 50 50 60).2) := by
  constructor
  · norm_num [makeResizerExtents]
  · norm_num [makeResizerExtents]

/-- C7 amended: in makeResizerFlexible both recomputed sibling extents are
clamped to at least 80px for every starting pair of extents and every
pointer delta, and only sizes[idx] and sizes[idx+1] are written; in the
earlier makeResizer rewrite the left extent is always clamped to at least
80px, but the right extent is only guaranteed at least 80px when the two
siblings' starting extents total at least 160px. -/
theorem c7_resizer_clamp (prevStart nextStart delta : ℚ) (sizes : List ℚ) (idx j : Nat)
    (hj1 : j ≠ idx) (hj2 : j ≠ idx + 1) :
    80 ≤ (flexResizerExtents prevStart nextStart delta).1 ∧
    80 ≤ (flexResizerExtents prevStart nextStart delta).2 ∧
    (flexResizerSizes sizes idx prevStart nextStart delta)[j]? = sizes[j]? ∧
    80 ≤ (makeResizerExtents prevStart nextStart delta).1 ∧
    (160 ≤ prevStart + nextStart → 80 ≤ (makeResizerExtents prevStart nextStart delta).2) := by
  refine ⟨le_max_left _ _, le_max_left _ _, ?_, le_max_left _ _, fun h => ?_⟩
  · simp only [flexResizerSizes]
    by_cases hlt : idx + 1 < sizes.length
    · simp only [hlt, if_true]
      rw [List.getElem?_set_ne (Ne.symm hj2), List.getElem?_set_ne (Ne.symm hj1)]
    · simp only [hlt, if_false]
      rw [List.getElem?_set_ne (Ne.symm hj1)]
  · have h1 : max 80 (min (prevStart + nextStart - 80) (prevStart + delta)) ≤
        prevStart + nextStart - 80 :=
      max_le (by linarith) (min_le_left _ _)
    simp only [makeResizerExtents]
    linarith

/-- Witness for C7 amended at concrete extents, delta, sizes and indices. -/
theorem c7_witness :
    (2 : Nat) ≠ 0 ∧ (2 : Nat) ≠ 1 ∧
    (80 ≤ (flexResizerExtents 100 100 1000).1 ∧
     80 ≤ (flexResizerExtents 100 100 1000).2 ∧
     (flexResizerSizes [1/2, 1/4, 1/4] 0 100 100 1000)[2]? = ([1/2, 1/4, 1/4] : List ℚ)[2]? ∧
     80 ≤ (makeResizerExtents 100 100 1000).1 ∧
     (160 ≤ (100 : ℚ) + 100 → 80 ≤ (makeResizerExtents 100 100 1000).2)) :=
  ⟨by decide, by decide, c7_resizer_clamp 100 100 1000 [1/2, 1/4, 1/4] 0 2
    (by decide) (by decide)⟩

/-- Witness for C9 at a concrete tree and absent id. -/
theorem c9_witness :
    containsLeaf (.split "row" [.leaf "P1", .leaf "P2"] (some [1/2, 1/2])) "Q" = false ∧
    splitPane (some (.split "row" [.leaf "P1", .leaf "P2"] (some [1/2, 1/2])))
        "E" "Q" "right" "N" =
      (some (.split "row" [.leaf "P1", .leaf "P2"] (some [1/2, 1/2])), none) ∧
    removeLeaf (some (.split "row" [.leaf "P1", .leaf "P2"] (some [1/2, 1/2]))) "Q" =
      some (.split "row" [.leaf "P1", .leaf "P2"] (some [1/2, 1/2])) :=
  ⟨rfl, c9_absent_leaf_noop _ "E" "Q" "right" "N" rfl⟩

mutual

theorem splitGo_binaryWf : ∀ (t : PaneNode) (p d f : String) (t' : PaneNode),
    binaryWf t = true → splitGo t p d f = some t' → binaryWf t' = true
  | .leaf i, p, d, f, t', _, hs => by
    by_cases h : i = p
    · subst h
      simp only [splitGo, if_pos, Option.some.injEq] at hs
      subst hs
      by_cases hnf : newLeafFirst d = true <;> simp [hnf, binaryWf, binaryWfList]
    · simp [splitGo, h] at hs
  | .split dd cs sz, p, d, f, t', hw, hs => by
    simp only [splitGo] at hs
    rcases hcs : splitGoList cs p d f with _ | cs'
    · simp [hcs] at hs
    · rw [hcs] at hs
      simp only [Option.some.injEq] at hs
      subst hs
      simp only [binaryWf, Bool.and_eq_true] at hw
      obtain ⟨⟨h1, h2⟩, h3⟩ := hw
      obtain ⟨g1, g2⟩ := splitGoList_binaryWfList cs p d f cs' h3 hcs
      simp only [binaryWf]
      rw [Bool.and_eq_true, Bool.and_eq_true]
      exact ⟨⟨by rw [decide_eq_true_iff] at h1 ⊢; omega, h2⟩, g1⟩

theorem splitGoList_binaryWfList : ∀ (cs : List PaneNode) (p d f : String)
    (cs' : List PaneNode), binaryWfList cs = true → splitGoList cs p d f = some cs' →
    binaryWfList cs' = true ∧ cs'.length = cs.length
  | c :: cs, p, d, f, cs', hw, hs => by
    simp only [binaryWfList, Bool.and_eq_true] at hw
    simp only [splitGoList] at hs
    rcases hc : splitGo c p d f with _ | c'
    · rw [hc] at hs
      rcases hcs : splitGoList cs p d f with _ | cs''
      · simp [hcs] at hs
      · rw [hcs] at hs
        simp only [Option.some.injEq] at hs
        subst hs
        obtain ⟨g1, g2⟩ := splitGoList_binaryWfList cs p d f cs'' hw.2 hcs
        refine ⟨?_, by simp [g2]⟩
        simp only [binaryWfList]
        rw [Bool.and_eq_true]
        exact ⟨hw.1, g1⟩
    · rw [hc] at hs
      simp only [Option.some.injEq] at hs
      subst hs
      refine ⟨?_, by simp⟩
      simp only [binaryWfList]
      rw [Bool.and_eq_true]
      exact ⟨splitGo_binaryWf c p d f c' hw.1 hc, hw.2⟩

end

mutual

theorem removeLeafGo_binaryWf : ∀ (t : PaneNode) (p : String) (r : Option PaneNode),
    binaryWf t = true → removeLeafGo t p = some r →
    ∀ t', r = some t' → binaryWf t' = true
  | .leaf i, p, r, _, hr => by
    by_cases h : i = p
    · subst h
      simp only [removeLeafGo, if_pos, Option.some.injEq] at hr
      subst hr
      intro t' ht'
      cases ht'
    · simp [removeLeafGo, h] at hr
  | .split dd cs sz, p, r, hw, hr => by
    simp only [binaryWf, Bool.and_eq_true] at hw
    obtain ⟨⟨h1, h2⟩, h3⟩ := hw
    simp only [removeLeafGo] at hr
    rcases hcs : removeLeafList cs p with _ | ⟨cs', b⟩
    · simp [hcs] at hr
    · rw [hcs] at hr
      obtain ⟨g1, g2, g3⟩ := removeLeafList_binaryWfList cs p cs' b h3 hcs
      rcases b with _ | _
      · simp only [Option.some.injEq] at hr
        subst hr
        intro t' ht'
        simp only [Option.some.injEq] at ht'
        subst ht'
        simp only [binaryWf]
        rw [Bool.and_eq_true, Bool.and_eq_true]
        have hlen : cs'.length = 2 := by
          rw [decide_eq_true_iff] at h1
          rw [g3 rfl, h1]
        exact ⟨⟨by rw [decide_eq_true_iff]; exact hlen, h2⟩, g1⟩
      · have hlen : cs'.length = 1 := by
          rw [decide_eq_true_iff] at h1
          have := g2 rfl
          omega
        rcases cs' with _ | ⟨lone, rest⟩
        · simp at hlen
        · rcases rest with _ | _
          · simp only [Option.some.injEq] at hr
            subst hr
            intro t' ht'
            simp only [Option.some.injEq] at ht'
            subst ht'
            simp only [binaryWfList, Bool.and_eq_true] at g1
            exact g1.1
          · simp at hlen

theorem removeLeafList_binaryWfList : ∀ (cs : List PaneNode) (p : String)
    (cs' : List PaneNode) (b : Bool),
    binaryWfList cs = true → removeLeafList cs p = some (cs', b) →
    binaryWfList cs' = true ∧
    (b = true → cs'.length + 1 = cs.length) ∧ (b = false → cs'.length = cs.length)
  | c :: cs, p, cs', b, hw, hr => by
    simp only [binaryWfList, Bool.and_eq_true] at hw
    simp only [removeLeafList] at hr
    rcases hc : removeLeafGo c p with _ | r
    · rw [hc] at hr
      rcases hcs : removeLeafList cs p with _ | ⟨cs'', b'⟩
      · simp [hcs] at hr
      · rw [hcs] at hr
        simp only [Option.some.injEq, Prod.mk.injEq] at hr
        obtain ⟨hcs', hb⟩ := hr
        subst hcs'
        subst hb
        obtain ⟨g1, g2, g3⟩ := removeLeafList_binaryWfList cs p cs'' b' hw.2 hcs
        refine ⟨?_, ?_, ?_⟩
        · simp only [binaryWfList]
          rw [Bool.and_eq_true]
          exact ⟨hw.1, g1⟩
        · intro hb'
          have := g2 hb'
          simp only [List.length_cons]
          omega
        · intro hb'
          have := g3 hb'
          simp only [List.length_cons]
          omega
    · rw [hc] at hr
      rcases r with _ | c'
      · simp only [Option.some.injEq, Prod.mk.injEq] at hr
        obtain ⟨hcs', hb⟩ := hr
        subst hcs'
        subst hb
        exact ⟨hw.2, ⟨fun _ => by simp, fun h => by simp at h⟩⟩
      · simp only [Option.some.injEq, Prod.mk.injEq] at hr
        obtain ⟨hcs', hb⟩ := hr
        subst hcs'
        subst hb
        refine ⟨?_, ⟨fun h => by simp at h, fun _ => by simp⟩⟩
        simp only [binaryWfList]
        rw [Bool.and_eq_true]
        exact ⟨removeLeafGo_binaryWf c p (some c') hw.1 hc c' rfl, hw.2⟩

end

theorem reachableTree_binaryWfOpt : ∀ T, ReachableTree T → binaryWfOpt T = true := by
  intro T h
  induction h with
  | init id => rfl
  | split T e p d f _ ih =>
    rcases T with _ | t
    · rcases hs : splitGo (.leaf e) p d f with _ | t' <;>
        simp only [splitPane, ensureTree, hs]
      · rfl
      · exact splitGo_binaryWf (.leaf e) p d f t' rfl hs
    · rcases hs : splitGo t p d f with _ | t' <;>
        simp only [splitPane, ensureTree, hs]
      · exact ih
      · exact splitGo_binaryWf t p d f t' ih hs
  | remove T p _ ih =>
    rcases T with _ | t
    · rfl
    · rcases hr : removeLeafGo t p with _ | r <;>
        simp only [removeLeaf, hr]
      · exact ih
      · rcases r with _ | t'
        · rfl
        · exact removeLeafGo_binaryWf t p (some t') ih hr t' rfl

mutual

theorem binaryWf_claimWf : ∀ t : PaneNode, binaryWf t = true → claimWf t = true
  | .leaf _, _ => rfl
  | .split d cs sz, h => by
    simp only [binaryWf, Bool.and_eq_true] at h
    obtain ⟨⟨h1, h2⟩, h3⟩ := h
    rw [decide_eq_true_iff] at h1
    simp only [claimWf]
    rw [Bool.and_eq_true, Bool.and_eq_true]
    refine ⟨⟨by rw [decide_eq_true_iff]; omega, ?_⟩, binaryWfList_claimWfList cs h3⟩
    rcases sz with _ | s
    · cases h2
    · rw [decide_eq_true_iff] at h2 ⊢
      omega

theorem binaryWfList_claimWfList : ∀ cs : List PaneNode,
    binaryWfList cs = true → claimWfList cs = true
  | [], _ => rfl
  | c :: cs, h => by
    simp only [binaryWfList, Bool.and_eq_true] at h
    simp only [claimWfList]
    rw [Bool.and_eq_true]
    exact ⟨binaryWf_claimWf c h.1, binaryWfList_claimWfList cs h.2⟩

end

/-- C1: every tree reachable from a single-leaf tree by splitPane and
removeLeaf has only well-shaped splits: at least two children (in fact
exactly two) and a sizes array whose length equals the children count. -/
theorem c1_no_degenerate_splits (T : Option PaneNode) (h : ReachableTree T) :
    claimWfOpt T = true := by
  have hb := reachableTree_binaryWfOpt T h
  rcases T with _ | t
  · rfl
  · exact binaryWf_claimWf t hb

/-- Witness for C1 on the reachable tree obtained by splitting the initial
single leaf once. -/
theorem c1_witness :
    claimWfOpt (splitPane (some (.leaf "P1")) "E" "P1" "right" "P2").1 = true :=
  c1_no_degenerate_splits _
    (ReachableTree.split _ "E" "P1" "right" "P2" (ReachableTree.init "P1"))

mutual

theorem splitGo_leafIds_perm : ∀ (t : PaneNode) (p d f : String) (t' : PaneNode),
    splitGo t p d f = some t' → List.Perm (leafIds t') (f :: leafIds t)
  | .leaf i, p, d, f, t', hs => by
    by_cases h : i = p
    · subst h
      simp only [splitGo, if_pos, Option.some.injEq] at hs
      subst hs
      by_cases hnf : newLeafFirst d = true <;>
        simp only [hnf, if_true, if_false, Bool.not_eq_true, leafIds, leafIdsList,
          List.append_nil, List.nil_append, List.singleton_append]
      · exact List.Perm.refl _
      · exact List.Perm.swap f i []
    · simp [splitGo, h] at hs
  | .split dd cs sz, p, d, f, t', hs => by
    simp only [splitGo] at hs
    rcases hcs : splitGoList cs p d f with _ | cs'
    · simp [hcs] at hs
    · rw [hcs] at hs
      simp only [Option.some.injEq] at hs
      subst hs
      simpa [leafIds] using splitGoList_leafIdsList_perm cs p d f cs' hcs

theorem splitGoList_leafIdsList_perm : ∀ (cs : List PaneNode) (p d f : String)
    (cs' : List PaneNode), splitGoList cs p d f = some cs' →
    List.Perm (leafIdsList cs') (f :: leafIdsList cs)
  | c :: cs, p, d, f, cs', hs => by
    simp only [splitGoList] at hs
    rcases hc : splitGo c p d f with _ | c'
    · rw [hc] at hs
      rcases hcs : splitGoList cs p d f with _ | cs''
      · simp [hcs] at hs
      · rw [hcs] at hs
        simp only [Option.some.injEq] at hs
        subst hs
        have hp := splitGoList_leafIdsList_perm cs p d f cs'' hcs
        have h1 : List.Perm (leafIds c ++ leafIdsList cs'')
            (leafIds c ++ (f :: leafIdsList cs)) := hp.append_left (leafIds c)
        have h2 : List.Perm (leafIds c ++ (f :: leafIdsList cs))
            (f :: (leafIds c ++ leafIdsList cs)) := List.perm_middle
        simpa [leafIdsList] using h1.trans h2
    · rw [hc] at hs
      simp only [Option.some.injEq] at hs
      subst hs
      have hp := splitGo_leafIds_perm c p d f c' hc
      have h1 : List.Perm (leafIds c' ++ leafIdsList cs)
          ((f :: leafIds c) ++ leafIdsList cs) := hp.append_right (leafIdsList cs)
      simpa [leafIdsList] using h1

end

mutual

theorem removeLeafGo_leafIds_sublist : ∀ (t : PaneNode) (p : String) (r : Option PaneNode),
    removeLeafGo t p = some r → List.Sublist (leafIdsOpt r) (leafIds t)
  | .leaf i, p, r, hr => by
    by_cases h : i = p
    · subst h
      simp only [removeLeafGo, if_pos, Option.some.injEq] at hr
      subst hr
      simp [leafIdsOpt]
    · simp [removeLeafGo, h] at hr
  | .split dd cs sz, p, r, hr => by
    simp only [removeLeafGo] at hr
    rcases hcs : removeLeafList cs p with _ | ⟨cs', b⟩
    · simp [hcs] at hr
    · rw [hcs] at hr
      have hsub := removeLeafList_leafIdsList_sublist cs p cs' b hcs
      rcases b with _ | _
      · simp only [Option.some.injEq] at hr
        subst hr
        simpa [leafIdsOpt, leafIds] using hsub
      · rcases cs' with _ | ⟨lone, rest⟩
        · simp only [Option.some.injEq] at hr
          subst hr
          simpa [leafIdsOpt, leafIds] using hsub
        · rcases rest with _ | _
          · simp only [Option.some.injEq] at hr
            subst hr
            simp only [leafIdsList, List.append_nil] at hsub
            simpa [leafIdsOpt, leafIds] using hsub
          · simp only [Option.some.injEq] at hr
            subst hr
            simpa [leafIdsOpt, leafIds] using hsub

theorem removeLeafList_leafIdsList_sublist : ∀ (cs : List PaneNode) (p : String)
    (cs' : List PaneNode) (b : Bool), removeLeafList cs p = some (cs', b) →
    List.Sublist (leafIdsList cs') (leafIdsList cs)
  | c :: cs, p, cs', b, hr => by
    simp only [removeLeafList] at hr
    rcases hc : removeLeafGo c p with _ | r
    · rw [hc] at hr
      rcases hcs : removeLeafList cs p with _ | ⟨cs'', b'⟩
      · simp [hcs] at hr
      · rw [hcs] at hr
        simp only [Option.some.injEq, Prod.mk.injEq] at hr
        obtain ⟨h1, h2⟩ := hr
        subst h1
        have := removeLeafList_leafIdsList_sublist cs p cs'' b' hcs
        simpa [leafIdsList] using this.append_left (leafIds c)
    · rw [hc] at hr
      rcases r with _ | c'
      · simp only [Option.some.injEq, Prod.mk.injEq] at hr
        obtain ⟨h1, h2⟩ := hr
        subst h1
        simp only [leafIdsList]
        exact List.sublist_append_right (leafIds c) (leafIdsList cs)
      · simp only [Option.some.injEq, Prod.mk.injEq] at hr
        obtain ⟨h1, h2⟩ := hr
        subst h1
        have ht := removeLeafGo_leafIds_sublist c p (some c') hc
        simp only [leafIdsOpt] at ht
        simpa [leafIdsList] using List.Sublist.append ht (List.Sublist.refl (leafIdsList cs))

end

/-- C5: starting from any tree whose leaf ids are unique, any sequence of
splitPane calls (each fed an id fresh for the tree, which is createPaneId's
role) and removeLeaf calls keeps every leaf id in the tree unique. -/
theorem c5_leaf_uniqueness (T : Option PaneNode) (h : ReachableFresh T) :
    (leafIdsOpt T).Nodup := by
  induction h with
  | base T hn => exact hn
  | split T e p d f _ hfresh ih =>
    rcases T with _ | t
    · rcases hs : splitGo (.leaf e) p d f with _ | t' <;>
        simp only [splitPane, ensureTree, hs]
      · simp [leafIdsOpt, leafIds]
      · have hperm := splitGo_leafIds_perm (.leaf e) p d f t' hs
        simp only [ensureTree] at hfresh
        refine (hperm.nodup_iff).2 (List.nodup_cons.2 ⟨hfresh, ?_⟩)
        simp [leafIds]
    · rcases hs : splitGo t p d f with _ | t' <;>
        simp only [splitPane, ensureTree, hs]
      · exact ih
      · have hperm := splitGo_leafIds_perm t p d f t' hs
        simp only [ensureTree] at hfresh
        exact (hperm.nodup_iff).2 (List.nodup_cons.2 ⟨hfresh, ih⟩)
  | remove T p _ ih =>
    rcases T with _ | t
    · exact ih
    · rcases hr : removeLeafGo t p with _ | r <;> simp only [removeLeaf, hr]
      · exact ih
      · rcases r with _ | t'
        · simp [leafIdsOpt]
        · have hsub := removeLeafGo_leafIds_sublist t p (some t') hr
          simp only [leafIdsOpt] at hsub ⊢
          exact List.Nodup.sublist hsub ih

/-- Witness for C5 on the tree obtained by splitting the initial single
leaf once with a fresh id. -/
theorem c5_witness :
    (leafIdsOpt (some (.leaf "P1"))).Nodup ∧
    "P2" ∉ leafIds (ensureTree (some (.leaf "P1")) "E") ∧
    (leafIdsOpt (splitPane (some (.leaf "P1")) "E" "P1" "right" "P2").1).Nodup :=
  ⟨by decide, by decide,
    c5_leaf_uniqueness _
      (ReachableFresh.split _ "E" "P1" "right" "P2"
        (ReachableFresh.base _ (by decide)) (by decide))⟩

mutual

theorem splitGo_frame : ∀ (t : PaneNode) (p d f : String) (t' : PaneNode),
    splitGo t p d f = some t' →
    (∃ l₁ l₂, leafIds t = l₁ ++ p :: l₂ ∧
      leafIds t' = l₁ ++ (if newLeafFirst d then [f, p] else [p, f]) ++ l₂) ∧
    (∃ m₁ m₂, splitMeta t = m₁ ++ m₂ ∧
      splitMeta t' = m₁ ++ (splitDir d, some [1/2, 1/2]) :: m₂)
  | .leaf i, p, d, f, t', hs => by
    by_cases h : i = p
    · subst h
      simp only [splitGo, if_pos, Option.some.injEq] at hs
      subst hs
      constructor
      · refine ⟨[], [], by simp [leafIds], ?_⟩
        by_cases hnf : newLeafFirst d = true <;>
          simp [hnf, leafIds, leafIdsList]
      · refine ⟨[], [], by simp [splitMeta], ?_⟩
        by_cases hnf : newLeafFirst d = true <;>
          simp [hnf, splitMeta, splitMetaList]
    · simp [splitGo, h] at hs
  | .split dd cs sz, p, d, f, t', hs => by
    simp only [splitGo] at hs
    rcases hcs : splitGoList cs p d f with _ | cs'
    · simp [hcs] at hs
    · rw [hcs] at hs
      simp only [Option.some.injEq] at hs
      subst hs
      obtain ⟨⟨l₁, l₂, hi1, hi2⟩, ⟨m₁, m₂, hm1, hm2⟩⟩ := splitGoList_frame cs p d f cs' hcs
      constructor
      · exact ⟨l₁, l₂, by simpa [leafIds] using hi1, by simpa [leafIds] using hi2⟩
      · exact ⟨(dd, sz) :: m₁, m₂, by simp [splitMeta, hm1], by simp [splitMeta, hm2]⟩

theorem splitGoList_frame : ∀ (cs : List PaneNode) (p d f : String)
    (cs' : List PaneNode), splitGoList cs p d f = some cs' →
    (∃ l₁ l₂, leafIdsList cs = l₁ ++ p :: l₂ ∧
      leafIdsList cs' = l₁ ++ (if newLeafFirst d then [f, p] else [p, f]) ++ l₂) ∧
    (∃ m₁ m₂, splitMetaList cs = m₁ ++ m₂ ∧
      splitMetaList cs' = m₁ ++ (splitDir d, some [1/2, 1/2]) :: m₂)
  | c :: cs, p, d, f, cs', hs => by
    simp only [splitGoList] at hs
    rcases hc : splitGo c p d f with _ | c'
    · rw [hc] at hs
      rcases hcs : splitGoList cs p d f with _ | cs''
      · simp [hcs] at hs
      · rw [hcs] at hs
        simp only [Option.some.injEq] at hs
        subst hs
        obtain ⟨⟨l₁, l₂, hi1, hi2⟩, ⟨m₁, m₂, hm1, hm2⟩⟩ := splitGoList_frame cs p d f cs'' hcs
        constructor
        · exact ⟨leafIds c ++ l₁, l₂, by simp [leafIdsList, hi1],
            by simp [leafIdsList, hi2]⟩
        · exact ⟨splitMeta c ++ m₁, m₂, by simp [splitMetaList, hm1],
            by simp [splitMetaList, hm2]⟩
    · rw [hc] at hs
      simp only [Option.some.injEq] at hs
      subst hs
      obtain ⟨⟨l₁, l₂, hi1, hi2⟩, ⟨m₁, m₂, hm1, hm2⟩⟩ := splitGo_frame c p d f c' hc
      constructor
      · exact ⟨l₁, l₂ ++ leafIdsList cs, by simp [leafIdsList, hi1],
          by simp [leafIdsList, hi2]⟩
      · exact ⟨m₁, m₂ ++ splitMetaList cs, by simp [splitMetaList, hm1],
          by simp [splitMetaList, hm2]⟩

end

/-- C10: a successful splitPane only rewrites the target leaf: the
depth-first leaf-id sequence changes exactly by replacing the first
occurrence of the target id with the pair made of the fresh id and the
target id (ordered by the request direction), every other leaf keeping its
id and its depth-first position; and the depth-first (direction, sizes)
sequence of the pre-existing split nodes is preserved, the only insertion
being the new split's own (direction, [0.5, 0.5]) entry. -/
theorem c10_split_frame (t : PaneNode) (p d f : String) (t' : PaneNode)
    (hs : splitGo t p d f = some t') :
    (∃ l₁ l₂, leafIds t = l₁ ++ p :: l₂ ∧
      leafIds t' = l₁ ++ (if newLeafFirst d then [f, p] else [p, f]) ++ l₂) ∧
    (∃ m₁ m₂, splitMeta t = m₁ ++ m₂ ∧
      splitMeta t' = m₁ ++ (splitDir d, some [1/2, 1/2]) :: m₂) :=
  splitGo_frame t p d f t' hs

/-- Witness for C10 on a two-leaf tree, splitting the second leaf. -/
theorem c10_witness :
    (∃ l₁ l₂, leafIds (.split "col" [.leaf "A", .leaf "P"] (some [1/2, 1/2])) =
        l₁ ++ "P" :: l₂ ∧
      leafIds (.split "col"
          [.leaf "A", .split "col" [.leaf "P", .leaf "N"] (some [1/2, 1/2])]
          (some [1/2, 1/2])) =
        l₁ ++ (if newLeafFirst "right" then ["N", "P"] else ["P", "N"]) ++ l₂) ∧
    (∃ m₁ m₂, splitMeta (.split "col" [.leaf "A", .leaf "P"] (some [1/2, 1/2])) =
        m₁ ++ m₂ ∧
      splitMeta (.split "col"
          [.leaf "A", .split "col" [.leaf "P", .leaf "N"] (some [1/2, 1/2])]
          (some [1/2, 1/2])) =
        m₁ ++ (splitDir "right", some [1/2, 1/2]) :: m₂) :=
  c10_split_frame (.split "col" [.leaf "A", .leaf "P"] (some [1/2, 1/2])) "P" "right" "N"
    (.split "col" [.leaf "A", .split "col" [.leaf "P", .leaf "N"] (some [1/2, 1/2])]
      (some [1/2, 1/2])) rfl

mutual

theorem normTree_fixpoint : ∀ t : PaneNode, normalForm t = true → normTree t = t
  | .leaf _, _ => rfl
  | .split d cs sz, h => by
    simp only [normalForm, Bool.and_eq_true, Bool.or_eq_true] at h
    obtain ⟨⟨h1, h2⟩, h3⟩ := h
    have hkids : normTreeList cs = cs := normTreeList_fixpoint cs h3
    rcases sz with _ | s
    · cases h2
    · rw [decide_eq_true_iff] at h2
      have hd : (d = "row" ∨ d = "col") := by
        rcases h1 with h1 | h1 <;> rw [decide_eq_true_iff] at h1
        · exact Or.inl h1
        · exact Or.inr h1
      simp [normTree, hkids, if_pos hd, h2]

theorem normTreeList_fixpoint : ∀ cs : List PaneNode,
    normalFormList cs = true → normTreeList cs = cs
  | [], _ => rfl
  | c :: cs, h => by
    simp only [normalFormList, Bool.and_eq_true] at h
    simp only [normTreeList, normTree_fixpoint c h.1, normTreeList_fixpoint cs h.2]

end

theorem lookupMap_skip (m : List (String × String)) (k : String) :
    ∀ acc : Option String, (∀ kv ∈ m, kv.1 ≠ k) →
      m.foldl (fun acc kv => if kv.1 = k then some kv.2 else acc) acc = acc := by
  induction m with
  | nil => intro acc _; rfl
  | cons kv m ih =>
    intro acc h
    simp only [List.foldl_cons]
    rw [if_neg (h kv (List.mem_cons_self kv m))]
    exact ih acc fun x hx => h x (List.mem_cons_of_mem kv hx)

theorem lookupMap_append_unique (m₁ m₂ : List (String × String)) (k v : String)
    (h : ∀ kv ∈ m₂, kv.1 ≠ k) :
    lookupMap (m₁ ++ (k, v) :: m₂) k = some v := by
  simp only [lookupMap, List.foldl_append, List.foldl_cons]
  simp only [if_pos]
  exact lookupMap_skip m₂ k (some v) h

theorem lookupMap_recordPaneMap (us₁ us₂ : List EditorUnit) (u : EditorUnit)
    (hnody : ((us₁ ++ u :: us₂).map EditorUnit.sessionId).Nodup)
    (hsid : u.sessionId ≠ "") :
    lookupMap (recordPaneMap (us₁ ++ u :: us₂)) u.sessionId = some u.paneId := by
  have hdecomp : recordPaneMap (us₁ ++ u :: us₂) =
      recordPaneMap us₁ ++ (u.sessionId, u.paneId) :: recordPaneMap us₂ := by
    simp [recordPaneMap, List.filterMap_append, hsid]
  rw [hdecomp]
  apply lookupMap_append_unique
  intro kv hkv
  have hk : kv.1 ∈ us₂.map EditorUnit.sessionId := by
    simp only [recordPaneMap] at hkv
    obtain ⟨e, he, hfe⟩ := List.mem_filterMap.1 hkv
    by_cases h : e.sessionId = ""
    · simp [h] at hfe
    · rw [if_neg h] at hfe
      cases hfe
      exact List.mem_map.2 ⟨e, he, rfl⟩
  have hn2 : (u.sessionId :: us₂.map EditorUnit.sessionId).Nodup := by
    have hsub : List.Sublist ((u :: us₂).map EditorUnit.sessionId)
        ((us₁ ++ u :: us₂).map EditorUnit.sessionId) :=
      (List.sublist_append_right us₁ (u :: us₂)).map EditorUnit.sessionId
    simpa using List.Nodup.sublist hsub hnody
  intro hkq
  exact (List.nodup_cons.1 hn2).1 (hkq ▸ hk)

theorem restoreEditors_round_trip (us : List EditorUnit) (t : PaneNode) (a f : String)
    (hnody : (us.map EditorUnit.sessionId).Nodup)
    (hsid : ∀ u ∈ us, u.sessionId ≠ "")
    (hwit : ∃ w ∈ us, w.paneId = a) :
    ∀ (us₂ us₁ : List EditorUnit), us = us₁ ++ us₂ →
      restoreEditors (recordPaneMap us) f (some t) (some a) us₁
        (us₂.map fun u => { u with paneId := a }) = (some t, some a, us) := by
  intro us₂
  induction us₂ with
  | nil =>
    intro us₁ hus
    simp only [List.map_nil, restoreEditors]
    rw [hus, List.append_nil]
  | cons u rest ih =>
    intro us₁ hus
    obtain ⟨usid, upid⟩ := u
    have hmem : (⟨usid, upid⟩ : EditorUnit) ∈ us := by
      rw [hus]
      exact List.mem_append_right us₁ (List.mem_cons_self _ _)
    have hlk : lookupMap (recordPaneMap us) usid = some upid := by
      rw [hus]
      rw [hus] at hnody
      exact lookupMap_recordPaneMap us₁ rest ⟨usid, upid⟩ hnody
        (hsid ⟨usid, upid⟩ hmem)
    simp only [List.map_cons, restoreEditors, hlk]
    by_cases heq : a = upid
    · rw [if_pos heq]
      have : ({ sessionId := usid, paneId := a } : EditorUnit) = ⟨usid, upid⟩ := by
        rw [heq]
      rw [this]
      exact ih (us₁ ++ [⟨usid, upid⟩]) (by rw [hus]; simp)
    · rw [if_neg heq]
      have hall : ((us₁ ++ ({ sessionId := usid, paneId := upid } : EditorUnit) ::
          rest.map (fun u => { u with paneId := a })).all
            (fun e => !decide (e.paneId = a))) = false := by
        obtain ⟨w, hw, hwa⟩ := hwit
        rw [hus] at hw
        apply Bool.eq_false_iff.2
        intro htrue
        have hforall := List.all_eq_true.1 htrue
        rcases List.mem_append.1 hw with hw1 | hw1
        · have hch := hforall w (List.mem_append_left _ hw1)
          rw [hwa] at hch
          simp at hch
        · rcases List.mem_cons.1 hw1 with hw2 | hw2
          · apply heq
            rw [hw2] at hwa
            exact hwa.symm
          · have hm : ({ w with paneId := a } : EditorUnit) ∈
                us₁ ++ ({ sessionId := usid, paneId := upid } : EditorUnit) ::
                  rest.map (fun u => { u with paneId := a }) :=
              List.mem_append_right _
                (List.mem_cons_of_mem _ (List.mem_map.2 ⟨w, hw2, rfl⟩))
            have hch := hforall _ hm
            simp at hch
      rw [hall]
      simp only [Bool.false_eq_true, if_false]
      exact ih (us₁ ++ [⟨usid, upid⟩]) (by rw [hus]; simp)

/-- C6: collapsing to the mobile pane (which backs up the cloned tree, the
active pane id and the unit→pane map) and then restoring to desktop
rebuilds exactly the pre-collapse engine state: the tree is structurally
identical to the tree at collapse time, every live unit is back on the pane
id recorded for it in the backup map (each such pane being a leaf of the
restored tree), and the backup slot is cleared — for any live state, i.e.
one whose tree is in normalized shape, whose active pane hosts at least one
unit, and whose units carry distinct non-empty session ids. -/
theorem c6_mobile_round_trip (s : EngineState) (t : PaneNode) (a f₁ f₂ : String)
    (hcol : s.isMobileCollapsed = false)
    (htree : s.paneTree = some t) (hnorm : normalForm t = true)
    (hact : s.activePaneId = some a)
    (hwit : ∃ w ∈ s.editors, w.paneId = a)
    (hnody : (s.editors.map EditorUnit.sessionId).Nodup)
    (hsid : ∀ u ∈ s.editors, u.sessionId ≠ "") :
    restoreFromMobileCollapse (collapseToMobilePane s f₁) f₂ =
      { s with desktopLayoutBackup := none, isMobileCollapsed := false } := by
  obtain ⟨pt, ap, eds, bk, mc⟩ := s
  simp only at hcol htree hact hwit hnody hsid
  subst hcol
  subst htree
  subst hact
  simp only [collapseToMobilePane, Bool.false_eq_true, if_false]
  simp only [restoreFromMobileCollapse, cloneTree, normalizeTree, if_true]
  rw [normTree_fixpoint t hnorm]
  rw [restoreEditors_round_trip eds t a f₂ hnody hsid hwit eds [] rfl]

/-- Witness for C6 on a concrete two-pane state with one unit per pane. -/
theorem c6_witness :
    normalForm (.split "col" [.leaf "A", .leaf "B"] (some [1/2, 1/2])) = true ∧
    (∃ w ∈ [(⟨"u1", "A"⟩ : EditorUnit), ⟨"u2", "B"⟩], w.paneId = "A") ∧
    restoreFromMobileCollapse
        (collapseToMobilePane
          { paneTree := some (.split "col" [.leaf "A", .leaf "B"] (some [1/2, 1/2]))
            activePaneId := some "A"
            editors := [⟨"u1", "A"⟩, ⟨"u2", "B"⟩]
            desktopLayoutBackup := none
            isMobileCollapsed := false } "F1") "F2" =
      { paneTree := some (.split "col" [.leaf "A", .leaf "B"] (some [1/2, 1/2]))
        activePaneId := some "A"
        editors := [⟨"u1", "A"⟩, ⟨"u2", "B"⟩]
        desktopLayoutBackup := none
        isMobileCollapsed := false } :=
  ⟨by decide, by decide,
    c6_mobile_round_trip _ (.split "col" [.leaf "A", .leaf "B"] (some [1/2, 1/2]))
      "A" "F1" "F2" rfl rfl (by decide) rfl (by decide) (by decide) (by decide)⟩

/-- C6 counterexample: restoreFromMobileCollapse reassigns a unit to the
pane id recorded in the backup map without checking that this pane exists
in the restored tree; the fallback to the active pane fires only for units
missing from the map. Starting from a state whose unit u1 sits on pane id
X while the tree is the single leaf A, the collapse/restore cycle puts u1
back on X — which is not a leaf of the restored tree — instead of the
current active pane A as the claim requires. -/
theorem c6_counterexample :
    (restoreFromMobileCollapse
        (collapseToMobilePane
          { paneTree := some (.leaf "A")
            activePaneId := some "A"
            editors := [⟨"u0", "A"⟩, ⟨"u1", "X"⟩]
            desktopLayoutBackup := none
            isMobileCollapsed := false } "F1") "F2").paneTree = some (.leaf "A") ∧
    (restoreFromMobileCollapse
        (collapseToMobilePane
          { paneTree := some (.leaf "A")
            activePaneId := some "A"
            editors := [⟨"u0", "A"⟩, ⟨"u1", "X"⟩]
            desktopLayoutBackup := none
            isMobileCollapsed := false } "F1") "F2").activePaneId = some "A" ∧
    (restoreFromMobileCollapse
        (collapseToMobilePane
          { paneTree := some (.leaf "A")
            activePaneId := some "A"
            editors := [⟨"u0", "A"⟩, ⟨"u1", "X"⟩]
            desktopLayoutBackup := none
            isMobileCollapsed := false } "F1") "F2").editors =
      [⟨"u0", "A"⟩, ⟨"u1", "X"⟩] ∧
    containsLeaf (.leaf "A") "X" = false ∧ "X" ≠ "A" :=
  ⟨rfl, rfl, rfl, rfl, by decide⟩
